import Mathlib

/-
  Verification development for the Canonkey streaming audio analyzer.

  Shallow embedding of the DSP core (RingBuffer.h, BpmTracker.cpp/h,
  LiveAnalyzer.cpp/h, KeyDetector.cpp/h) in Lean 4.

  Modelling conventions:
  * `float`/`double` arithmetic is modelled exactly over `ℚ`; decimal float
    literals of the source (0.5f, 0.33f, 1e-6f, ...) are modelled by the
    corresponding rational literals.  Rounding of IEEE arithmetic is
    abstracted away; all claims verified here are about the exact
    real-number algorithm of the source.
  * transcendental parts of the pipeline (Hann window, FFT, log1p) are not
    rational; functions that only pass through them take them as explicit
    parameters, and the per-frame spectral body of `processMono` is a
    parameter `frameStep` (the claims below do not depend on it).
  * `std::sort`/`std::nth_element` produce some sorted rearrangement; sorted
    order of a multiset over a total order is unique, so they are modelled
    with `List.insertionSort`.
  * the power-of-two masking `x & (cap-1)` of RingBuffer.h is modelled as
    `x % cap` (equal for power-of-two capacities, which `reset` guarantees).
-/

namespace Canonkey

/-- Model of `juce::jlimit lo hi x` (also `std::clamp`): `x < lo ? lo : (hi < x ? hi : x)`. -/
def jlimit {α : Type} [LinearOrder α] (lo hi x : α) : α :=
  if x < lo then lo else if hi < x then hi else x

/-! ## RingBuffer (src/RingBuffer.h)

Single-producer/single-consumer ring buffer of mono float samples.
The `write_`/`read_` counters are modelled as unbounded naturals (the C++
`size_t` counters wrap at 2^64; all differences used by the code are small). -/

structure RBState where
  cap : ℕ
  buf : ℕ → ℚ
  w : ℕ
  r : ℕ
  dropped : ℕ

/-- The capacity loop of `RingBuffer::reset`: start at 256 and double while
below the requested capacity.  (The `0 < cap` guard only makes the recursion
well-founded; reset always starts from 256 > 0, where it is vacuous.) -/
def growCap (cap req : ℕ) : ℕ :=
  if h : 0 < cap ∧ cap < req then growCap (2 * cap) req else cap
termination_by req - cap
decreasing_by omega

/-- Model of `RingBuffer::reset(capacityPow2)`: capacity rounded up from 256 by
doubling, zeroed storage, both counters and the drop counter cleared. -/
def resetState (req : ℕ) : RBState :=
  { cap := growCap 256 req, buf := fun _ => 0, w := 0, r := 0, dropped := 0 }

/-- Number of stored (unread) samples, `RingBuffer::size()`. -/
def RBState.size (s : RBState) : ℕ := s.w - s.r

/-- Model of `RingBuffer::freeSpace()`. -/
def RBState.freeSpace (s : RBState) : ℕ := s.cap - 1 - (s.w - s.r)

/-- The write loop of `pushPlanarToMono`: store values one by one at
`(w + i) % cap` (source: `buffer_[(w + i) & mask_] = s`). -/
def writeSeq (cap : ℕ) (buf : ℕ → ℚ) (w : ℕ) : List ℚ → (ℕ → ℚ)
  | [] => buf
  | v :: rest => writeSeq cap (fun j => if j = w % cap then v else buf j) (w + 1) rest

/-- The push phase of `RingBuffer::pushPlanarToMono` acting on the already
mixed mono block `vs`: write `min |vs| free` samples, advance `write_`,
count the rest as dropped.  The producer never waits. -/
def pushMono (s : RBState) (vs : List ℚ) : RBState × ℕ :=
  let t := min vs.length (s.cap - 1 - (s.w - s.r))
  (⟨s.cap, writeSeq s.cap s.buf s.w (vs.take t), s.w + t, s.r,
    s.dropped + (vs.length - t)⟩, t)

/-- The per-sample mono mix of `pushPlanarToMono`:
`s = (Σ_c input[c][i]) / numCh * gain`. -/
def monoMixAt (input : List (List ℚ)) (gain : ℚ) (i : ℕ) : ℚ :=
  ((input.map (fun ch => ch.getD i 0)).sum / (input.length : ℚ)) * gain

/-- Model of `RingBuffer::pushPlanarToMono(input, numCh, numSamples, gain)`; the planar
channel block is a list of channel sample lists (`numCh = input.length`).
Null/empty guard as in the source. -/
def pushPlanarToMono (s : RBState) (input : List (List ℚ)) (numSamples : ℤ)
    (gain : ℚ) : RBState × ℕ :=
  if input.isEmpty ∨ numSamples ≤ 0 then (s, 0)
  else pushMono s ((List.range numSamples.toNat).map (monoMixAt input gain))

/-- Model of `RingBuffer::pop(dst, numSamples)`: read `min avail n` samples from
`(r + i) % cap`, advance `read_`. -/
def popRB (s : RBState) (n : ℕ) : RBState × List ℚ :=
  let t := min (s.w - s.r) n
  (⟨s.cap, s.buf, s.w, s.r + t, s.dropped⟩,
   (List.range t).map (fun i => s.buf ((s.r + i) % s.cap)))

/-- Operations applied to the ring buffer (one push of a mono block, or one
pop of `n` samples). -/
inductive RBOp where
  | push : List ℚ → RBOp
  | pop : ℕ → RBOp

/-- Run a sequence of operations against the concrete ring buffer, collecting
the sample blocks each pop returned. -/
def runRB (s : RBState) : List RBOp → RBState × List (List ℚ)
  | [] => (s, [])
  | RBOp.push vs :: rest => runRB (pushMono s vs).1 rest
  | RBOp.pop n :: rest =>
      let p := popRB s n
      let c := runRB p.1 rest
      (c.1, p.2 :: c.2)

/-- Specification-side queue, from the spec's words: a bounded FIFO holding at
most `cap - 1` samples; a push appends as much of the block as fits (the rest
of the block is dropped), a pop removes and returns the earliest samples. -/
def queuePush (cap : ℕ) (q vs : List ℚ) : List ℚ :=
  q ++ vs.take (cap - 1 - q.length)

/-- Specification-side pop: first `n` stored samples, in arrival order. -/
def queuePop (q : List ℚ) (n : ℕ) : List ℚ × List ℚ :=
  (q.drop n, q.take n)

/-- Run a sequence of operations against the specification queue. -/
def runQ (cap : ℕ) (q : List ℚ) : List RBOp → List ℚ × List (List ℚ)
  | [] => (q, [])
  | RBOp.push vs :: rest => runQ cap (queuePush cap q vs) rest
  | RBOp.pop n :: rest =>
      let p := queuePop q n
      let c := runQ cap p.1 rest
      (c.1, p.2 :: c.2)

/-- Refinement relation between a concrete ring-buffer state and the abstract
FIFO queue of its unread samples. -/
def RBinv (s : RBState) (q : List ℚ) : Prop :=
  s.r ≤ s.w ∧ s.w - s.r = q.length ∧ q.length ≤ s.cap - 1 ∧ 256 ≤ s.cap ∧
    ∀ i, i < q.length → s.buf ((s.r + i) % s.cap) = q.getD i 0

/-! ## BpmTracker (src/BpmTracker.cpp, src/BpmTracker.h)

Configuration constants of BpmTracker.h: `hopSize = 512`, `minBPM = 60`,
`maxBPM = 200`, `topPeaks = 5`, `bpmHistLen = 8`, `reestimateEvery = 0.25`.
The sample rate is a constructor parameter. -/

/-- Constructor guard: `sr = sampleRate > 0 ? sampleRate : 44100`. -/
def srOf (sampleRate : ℚ) : ℚ := if 0 < sampleRate then sampleRate else 44100

/-- Envelope rate `envRate = sr / hopSize` (hopSize = 512). -/
def envRate (sr : ℚ) : ℚ := sr / 512

/-- Model of `framesPerUpdate = reestimateEvery * envRate` (reestimateEvery = 0.25 s). -/
def framesPerUpdate (sr : ℚ) : ℚ := (1 / 4) * envRate sr

/-- The re-estimation counter step at the end of `pushEnvelope`:
`lastACFTime += 1.0; if (lastACFTime >= framesPerUpdate) { lastACFTime = 0; fire; }`.
Returns the new counter and whether `maybeComputeTempo` fires at this hop. -/
def acfTick (F t : ℚ) : ℚ × Bool :=
  if F ≤ t + 1 then (0, true) else (t + 1, false)

/-- Counter value after `n` hops starting from the reset value 0. -/
def acfTimeAfter (F : ℚ) : ℕ → ℚ
  | 0 => 0
  | n + 1 => (acfTick F (acfTimeAfter F n)).1

/-- Whether the tempo re-estimation fires while processing hop `n + 1`. -/
def acfFiresAt (F : ℚ) (n : ℕ) : Bool := (acfTick F (acfTimeAfter F n)).2

/-- Model of `BpmTracker::bpmToLag` (std::round modelled as `⌊x + 1/2⌋`, identical for
the non-negative arguments that occur here). -/
def bpmToLag (sr bpm : ℚ) : ℤ :=
  max 1 ⌊60 * envRate sr / jlimit 60 200 bpm + 1 / 2⌋

/-- Model of `BpmTracker::lagToBpm`. -/
def lagToBpm (sr : ℚ) (lag : ℤ) : ℚ := 60 * envRate sr / (lag : ℚ)

/-- Model of `BpmTracker::median` (sort a copy; middle element, or the mean of the two
middle elements for even length; 0 for the empty deque). -/
def medianQ (v : List ℚ) : ℚ :=
  if v.length = 0 then 0
  else
    if v.length % 2 = 1 then (v.insertionSort (· ≤ ·)).getD (v.length / 2) 0
    else ((v.insertionSort (· ≤ ·)).getD (v.length / 2 - 1) 0 +
          (v.insertionSort (· ≤ ·)).getD (v.length / 2) 0) / 2

/-- Sum of squares of the entries. -/
def energyOf (x : List ℚ) : ℚ := (x.map (fun v => v * v)).sum

/-- Lagged product sum `Σ_{i < N-lag} x[i]·x[i+lag]` of `x` with its shift. -/
def dotShift (x : List ℚ) (lag : ℕ) : ℚ := (x.zipWith (· * ·) (x.drop lag)).sum

/-- Model of `BpmTracker::computeAcf`: normalized autocorrelation over lags
`[l0, L]`; the output is pre-filled with zeros and left untouched when the
zero-lag energy is below 1e-12. -/
def computeAcf (x : List ℚ) (minLag maxLag : ℤ) : List ℚ :=
  let N : ℤ := x.length
  let L := jlimit 1 (N - 1) maxLag
  let l0 := jlimit 1 (L - 1) minLag
  let len := (L - l0 + 1).toNat
  if energyOf x < 1 / 10 ^ 12 then List.replicate len 0
  else (List.range len).map (fun j => dotShift x (l0.toNat + j) / energyOf x)

/-- Local-maximum test of `maybeComputeTempo`'s peak picking (with the
boundary clamps of the source). -/
def isLocalMax (acf : List ℚ) (i : ℕ) : Bool :=
  decide (acf.getD (min (acf.length - 1) (i + 1)) 0 ≤ acf.getD i 0 ∧
          acf.getD (i - 1) 0 < acf.getD i 0)

/-- Peak picking over the interior indices `1 .. |acf| - 2`; a peak records
its true lag `i + minLag` and the ACF value. -/
def peakPick (acf : List ℚ) (minLag : ℤ) : List (ℤ × ℚ) :=
  (List.range' 1 (acf.length - 2)).filterMap
    (fun i => if isLocalMax acf i then some ((i : ℤ) + minLag, acf.getD i 0) else none)

/-- Model of `BpmTracker::combScoreAtLag(acf, idx)`: fundamental plus decaying
harmonics, read at buffer indices `idx`, `2·idx`, `3·idx` (out of range reads
as 0), normalized by 1 + 0.5 + 0.33. -/
def combScoreAtLag (acf : List ℚ) (idx : ℤ) : ℚ :=
  let valAt : ℤ → ℚ := fun i =>
    if 0 ≤ i ∧ i < (acf.length : ℤ) then acf.getD i.toNat 0 else 0
  let i2 : ℤ := if 0 ≤ idx then idx * 2 else -1
  let i3 : ℤ := if 0 ≤ idx then idx * 3 else -1
  (valAt idx + 1 / 2 * valAt i2 + 33 / 100 * valAt i3) / (1 + 1 / 2 + 33 / 100)

/-- The claimed comb score, from the spec's words:
`[ACF(l) + 0.5·ACF(2l) + 0.33·ACF(3l)] / 1.83`, where `ACF(λ)` is the
autocorrelation at true lag `λ` (buffer index `λ - minLag`; 0 out of range). -/
def specCombScore (acf : List ℚ) (minLag l : ℤ) : ℚ :=
  let acfAt : ℤ → ℚ := fun lam =>
    if 0 ≤ lam - minLag ∧ lam - minLag < (acf.length : ℤ)
    then acf.getD (lam - minLag).toNat 0 else 0
  (acfAt l + 1 / 2 * acfAt (2 * l) + 33 / 100 * acfAt (3 * l)) / (1 + 1 / 2 + 33 / 100)

/-- One candidate's score in the comb/octave comparison loop of
`maybeComputeTempo` (lines 311-328): harmonic comb at the candidate, with the
double and half lag substituted only when clearly better. -/
def candScore (acf : List ℚ) (minLag L l1 : ℤ) : ℚ :=
  let s1 := combScoreAtLag acf (l1 - minLag)
  let s2 := combScoreAtLag acf (jlimit minLag L (l1 * 2) - minLag)
  let sh := combScoreAtLag acf (jlimit minLag L (max 2 (l1 / 2)) - minLag)
  let a := if s2 > s1 ∧ s2 - s1 > 1 / 10 then s2 * (95 / 100) else s1
  if sh > a ∧ sh - a > 8 / 100 then sh * (92 / 100) else a

/-- The best-candidate fold of `maybeComputeTempo` over the retained peaks:
start from score −1 and the first peak's lag, keep the strictly better. -/
def bestPeak (acf : List ℚ) (minLag L : ℤ) (peaks : List (ℤ × ℚ)) : ℚ × ℤ :=
  peaks.foldl
    (fun b pk => if candScore acf minLag L pk.1 > b.1 then (candScore acf minLag L pk.1, pk.1) else b)
    (-1, (peaks.headD (0, 0)).1)

/-- The BpmTracker state touched by `maybeComputeTempo`. -/
structure TrackerState where
  onsetEnv : List ℚ
  bpmHistory : List ℚ
  currentBpm : ℚ
  currentConf : ℚ
  acfBuf : List ℚ

/-- Demeaned, non-negative copy of the envelope
(`x[i] = max(0, onsetEnv[i] - mean)`). -/
def demeanedEnv (env : List ℚ) : List ℚ :=
  env.map (fun v => max 0 (v - env.sum / (env.length : ℚ)))

/-- Model of `BpmTracker::maybeComputeTempo`: needs ≥ 2.5 s of envelope; ACF over the
BPM lag range; peak picking; comb scoring with octave comparison; candidate
clamped to `[minBPM, maxBPM]`; confidence from peak-vs-median ACF; candidate
debounced through an 8-entry median history. -/
def maybeComputeTempo (sr : ℚ) (s : TrackerState) : TrackerState :=
  if (s.onsetEnv.length : ℤ) < ⌊(5 / 2 : ℚ) * envRate sr⌋ then s
  else
    let x := demeanedEnv s.onsetEnv
    let minLag := bpmToLag sr 200
    let maxLag := bpmToLag sr 60
    let L := jlimit 2 (max 2 ((s.onsetEnv.length : ℤ) - 2)) maxLag
    let acf := computeAcf x minLag L
    if acf.isEmpty then { s with acfBuf := acf }
    else
      let peaks := (peakPick acf minLag).insertionSort (fun a b => b.2 ≤ a.2) |>.take 5
      if peaks.isEmpty then { s with acfBuf := acf }
      else
        let best := bestPeak acf minLag L peaks
        let candBpm := jlimit 60 200 (lagToBpm sr best.2)
        let acfMed := medianQ acf
        let conf :=
          if 1 / 10 ^ 6 < acfMed
          then jlimit 0 1 ((best.1 - acfMed) / (best.1 + acfMed + 1 / 10 ^ 6))
          else 0
        let hist0 := s.bpmHistory ++ [candBpm]
        let hist := if 8 < hist0.length then hist0.drop 1 else hist0
        { onsetEnv := s.onsetEnv, bpmHistory := hist,
          currentBpm := medianQ hist, currentConf := conf, acfBuf := acf }

/-- State of `prevBandMag` as initialized by the BpmTracker constructor:
`prevBandMag.assign(numBands, 0.0f)` with `numBands = 6` — six zeros,
in particular *not* empty. -/
def initPrevBandMag : List ℚ := List.replicate 6 0

/-- The spectral-flux step of `BpmTracker::processMono` (lines 209-218):
sum of positive band differences, guarded by `!prevBandMag.empty()`. -/
def spectralFlux (prevBM bandMag : List ℚ) : ℚ :=
  if prevBM.isEmpty then 0
  else ((bandMag.zip prevBM).map
    (fun p => if 0 < p.1 - p.2 then p.1 - p.2 else 0)).sum

/-- The frame loop of `BpmTracker::processMono`: while a full frame
(2048 samples) is buffered, process it and advance by the hop (512).  The
windowing/FFT/flux body is the parameter `frameStep` (it involves
transcendental functions; no claim below depends on it). -/
def processLoop {σ : Type} (frameStep : σ → List ℚ → σ) :
    σ × List ℚ → σ × List ℚ := fun st =>
  if _h : 2048 ≤ st.2.length
  then processLoop frameStep (frameStep st.1 (st.2.take 2048), st.2.drop 512)
  else st
termination_by st => st.2.length
decreasing_by simp; omega

/-- Model of `BpmTracker::processMono(samples, numSamples)`: null/non-positive-length
guard, then append to the FIFO and run the frame loop. -/
def processMonoModel {σ : Type} (frameStep : σ → List ℚ → σ)
    (st : σ × List ℚ) (samples : Option (List ℚ)) (numSamples : ℤ) :
    σ × List ℚ :=
  match samples with
  | none => st
  | some vs =>
      if numSamples ≤ 0 then st
      else processLoop frameStep (st.1, st.2 ++ vs.take numSamples.toNat)

/-! ## LiveAnalyzer (src/LiveAnalyzer.cpp, src/LiveAnalyzer.h)

BPM resolution and stabilization of `computeBpmAndPublish` (lines 228-276).
Settings defaults: `minBPM = 60`, `maxBPM = 200`, `bpmSmoothing = 0.7`. -/

/-- The "gentle octave correction (favor 80-160)" applied after clamping. -/
def octaveCorrect (b : ℚ) : ℚ :=
  if b < 80 then b * 2 else if 160 < b then b / 2 else b

/-- Clamp a raw BPM into `[lo, hi]`, then octave-correct. -/
def laResolveBpm (lo hi raw : ℚ) : ℚ := octaveCorrect (jlimit lo hi raw)

/-- The circular 8-entry `recentBpm` stabilizer holds the last (at most) 8
accepted values; the median only depends on that multiset, so the ring is
modelled as the list of the most recent values. -/
def laRecentPush (recent : List ℚ) (b : ℚ) : List ℚ :=
  if recent.length < 8 then recent ++ [b] else recent.drop 1 ++ [b]

/-- The `nth_element` median of `computeBpmAndPublish`: the (⌊n/2⌋+1)-th
smallest value, averaged with the largest value of the lower half when the
count is even — i.e. the middle of the sorted values. -/
def laMedian (v : List ℚ) : ℚ :=
  if v.length % 2 = 1 then (v.insertionSort (· ≤ ·)).getD (v.length / 2) 0
  else ((v.insertionSort (· ≤ ·)).getD (v.length / 2) 0 +
        (v.insertionSort (· ≤ ·)).getD (v.length / 2 - 1) 0) / 2

/-- The final EMA stage: `if (bpmEMA <= 0) bpmEMA = median;`
`bpmEMA = smoothing*bpmEMA + (1-smoothing)*median`. -/
def laEmaStep (smoothing prevEMA med : ℚ) : ℚ :=
  smoothing * (if prevEMA ≤ 0 then med else prevEMA) + (1 - smoothing) * med

/-- The published BPM of one `computeBpmAndPublish` pass, starting from the
raw (pre-clamp) BPM: clamp, octave-correct, 8-entry median, EMA. -/
def laPublishBpm (lo hi smoothing : ℚ) (recent : List ℚ) (prevEMA raw : ℚ) : ℚ :=
  laEmaStep smoothing prevEMA (laMedian (laRecentPush recent (laResolveBpm lo hi raw)))

/-! ## KeyDetector (src/KeyDetector.cpp, src/KeyDetector.h)

Viterbi transition model and the dwell/margin/rate publish gate.  The 24 key
states are 0..11 = C..B major, 12..23 = C..B minor.  The wall-clock source
`nowMs()` (`juce::Time::getMillisecondCounterHiRes`) is an explicit `now`
parameter of `maybePublish`. -/

/-- The `Settings` fields used by `viterbiStep`/`maybePublish`, with the
defaults of KeyDetector.h. -/
structure KDCfg where
  publishMinIntervalSec : ℚ := 1 / 2
  dwellRequiredSec : ℚ := 5 / 2
  marginRequired : ℚ := 8 / 100
  stayBias : ℚ := 1 / 25
  neighborBonus : ℚ := 1 / 50
  transitionPenalty : ℚ := 1 / 25

/-- The default-constructed settings. -/
def kdDefault : KDCfg := {}

/-- Model of `clamp01` of KeyDetector.h. -/
def clamp01 (x : ℚ) : ℚ := if x < 0 then 0 else if 1 < x then 1 else x

/-- The `related` lambda of `viterbiStep`: relative minor/major of the other
mode, or a fourth/fifth shift within the same mode (the `a == b` clause is
kept although the caller tests `k == p` first). -/
def related (a b : ℕ) : Bool :=
  (a == b) ||
  (decide (a < 12) && decide (12 ≤ b) && (b % 12 == (a % 12 + 9) % 12)) ||
  (decide (12 ≤ a) && decide (b < 12) && (b % 12 == (a % 12 + 3) % 12)) ||
  ((decide (12 ≤ a) == decide (12 ≤ b)) &&
    ((b % 12 == (a % 12 + 7) % 12) || (b % 12 == (a % 12 + 5) % 12)))

/-- The transition weight applied when moving from state `p` to state `k`. -/
def transition (cfg : KDCfg) (p k : ℕ) : ℚ :=
  if k = p then cfg.stayBias
  else if related p k then cfg.neighborBonus
  else -cfg.transitionPenalty

/-- The inner `bestPrev` fold of `viterbiStep` over all 24 previous states,
starting from `-1e9`. -/
def bestPrevFold (cfg : KDCfg) (v : ℕ → ℚ) (k : ℕ) : ℚ :=
  (List.range 24).foldl
    (fun best p => if v p + transition cfg p k > best then v p + transition cfg p k else best)
    (-(10 ^ 9))

/-- The streaming-Viterbi update of `viterbiStep` (the already-initialized
branch): every state's new accumulator value. -/
def viterbiNext (cfg : KDCfg) (v inst : ℕ → ℚ) : ℕ → ℚ :=
  fun k => bestPrevFold cfg v k + inst k

/-- The biased instantaneous score used by `maybePublish`'s best/runner-up
scan: `instScore[k]` plus `stayBias` on the current Viterbi argmax. -/
def biasedScore (cfg : KDCfg) (inst : ℕ → ℚ) (vit : ℤ) (k : ℕ) : ℚ :=
  inst k + if (k : ℤ) = vit then cfg.stayBias else 0

/-- State of the best/second scan loop of `maybePublish`. -/
structure ScanSt where
  best : ℤ
  second : ℤ
  sBest : ℚ
  sSecond : ℚ
deriving DecidableEq

/-- Initial scan state (`best = second = -1`, scores `-1e9`). -/
def scanInit : ScanSt := ⟨-1, -1, -(10 ^ 9), -(10 ^ 9)⟩

/-- One iteration of the best/second scan. -/
def scanStep (sc : ℕ → ℚ) (st : ScanSt) (k : ℕ) : ScanSt :=
  if sc k > st.sBest then ⟨(k : ℤ), st.best, sc k, st.sBest⟩
  else if sc k > st.sSecond then ⟨st.best, (k : ℤ), st.sBest, sc k⟩
  else st

/-- The full best/second scan of `maybePublish` over states 0..23. -/
def scanBest (sc : ℕ → ℚ) : ScanSt := (List.range 24).foldl (scanStep sc) scanInit

/-- Model of `margin = (sSecond <= 1e-6) ? 1.0 : (sBest - sSecond)`. -/
def margin24 (st : ScanSt) : ℚ :=
  if st.sSecond ≤ 1 / 10 ^ 6 then 1 else st.sBest - st.sSecond

/-- The publish-gate state of KeyDetector.h (`pendingKey`, `pendingSinceMs`,
`lastPublishMs`), all cleared by `reset`. -/
structure PubState where
  pendingKey : ℤ
  pendingSinceMs : ℚ
  lastPublishMs : ℚ
deriving DecidableEq

/-- Model of `KeyDetector::Result`. -/
structure KDResult where
  keyIndex : ℤ
  isMinor : Bool
  confidence : ℚ
deriving DecidableEq

/-- Model of `KeyDetector::maybePublish`, with the wall-clock reading `nowMs()` passed
in as `now` (milliseconds): scan for best/second biased instantaneous scores,
reset the dwell timer when the leader changes, publish when the dwell, margin
and rate gates all hold. -/
def maybePublish (cfg : KDCfg) (inst : ℕ → ℚ) (vit : ℤ) (st : PubState)
    (now : ℚ) : PubState × Option KDResult :=
  let f := scanBest (biasedScore cfg inst vit)
  let m := margin24 f
  let st1 : PubState :=
    if st.pendingKey ≠ f.best then ⟨f.best, now, st.lastPublishMs⟩ else st
  if cfg.dwellRequiredSec * 1000 ≤ now - st1.pendingSinceMs ∧
     cfg.marginRequired ≤ m ∧
     cfg.publishMinIntervalSec * 1000 ≤ now - st1.lastPublishMs
  then (⟨st1.pendingKey, st1.pendingSinceMs, now⟩,
        some ⟨f.best % 12, decide (12 ≤ f.best), clamp01 m⟩)
  else (st1, none)

/-- Helper `listMaxQ init l`: left fold of `max` — the running-maximum pattern used
by the source's scan loops. -/
def listMaxQ (init : ℚ) (l : List ℚ) : ℚ := l.foldl max init

/-- Concrete instantaneous-score vector for the publish-gate test cases: a
clear leader at state 0 (C major) and a runner-up at state 1. -/
def instEx : ℕ → ℚ := fun k => if k = 0 then 1 else if k = 1 then 1 / 2 else 0

/-- Concrete instantaneous-score vector with a degenerate field: a small
positive score at state 0, zero everywhere else. -/
def instDeg : ℕ → ℚ := fun k => if k = 0 then 1 / 25 else 0

/-- Specification-side second-best: the highest biased score among the 23
states other than the leader `b` (seeded with the scan's `-1e9`). -/
def specSecondBest (sc : ℕ → ℚ) (b : ℕ) : ℚ :=
  listMaxQ (-(10 ^ 9)) (((List.range 24).erase b).map sc)

/-- Specification-side publish margin: leader minus runner-up, except that a
runner-up at or below 1e-6 forces margin 1 (the degenerate branch of the
source). -/
def specMargin (sc : ℕ → ℚ) (b : ℕ) : ℚ :=
  if specSecondBest sc b ≤ 1 / 10 ^ 6 then 1 else sc b - specSecondBest sc b

/-! ## Helper lemmas -/

lemma jlimit_bounds (lo hi x : ℚ) (h : lo ≤ hi) :
    lo ≤ jlimit lo hi x ∧ jlimit lo hi x ≤ hi := by
  unfold jlimit
  split_ifs with h1 h2 <;> constructor <;> linarith

lemma getD_sorted_mem (v : List ℚ) (i : ℕ) (hi : i < v.length) :
    (v.insertionSort (· ≤ ·)).getD i 0 ∈ v := by
  have hlen : (v.insertionSort (· ≤ ·)).length = v.length :=
    List.length_insertionSort _ v
  have hi' : i < (v.insertionSort (· ≤ ·)).length := by omega
  rw [List.getD_eq_getElem _ _ hi']
  exact (List.perm_insertionSort (· ≤ ·) v).subset (List.getElem_mem hi')

lemma medianQ_bounds (v : List ℚ) (a b : ℚ) (hne : v ≠ [])
    (h : ∀ x ∈ v, a ≤ x ∧ x ≤ b) : a ≤ medianQ v ∧ medianQ v ≤ b := by
  have h0 : v.length ≠ 0 := fun hz => hne (List.length_eq_zero.mp hz)
  have hpos : 0 < v.length := Nat.pos_of_ne_zero h0
  unfold medianQ
  rw [if_neg h0]
  split_ifs with hodd
  · exact h _ (getD_sorted_mem v _ (Nat.div_lt_self hpos (by norm_num)))
  · have h1 := h _ (getD_sorted_mem v (v.length / 2 - 1) (by omega))
    have h2 := h _ (getD_sorted_mem v (v.length / 2) (Nat.div_lt_self hpos (by norm_num)))
    constructor <;> [linarith [h1.1, h2.1]; linarith [h1.2, h2.2]]

lemma laMedian_eq_medianQ (v : List ℚ) (hne : v ≠ []) : laMedian v = medianQ v := by
  have h0 : v.length ≠ 0 := fun hz => hne (List.length_eq_zero.mp hz)
  unfold laMedian medianQ
  rw [if_neg h0]
  split_ifs with hodd
  · rfl
  · rw [add_comm]

lemma getD_replicate_zero (n i : ℕ) : (List.replicate n (0 : ℚ)).getD i 0 = 0 := by
  rcases lt_or_ge i n with hlt | hge
  · rw [List.getD_eq_getElem _ _ (by simpa using hlt)]
    simp
  · exact List.getD_eq_default _ _ (by simpa using hge)

lemma peakPick_replicate_zero (m : ℕ) (minLag : ℤ) :
    peakPick (List.replicate m 0) minLag = [] := by
  unfold peakPick
  rw [List.filterMap_eq_nil_iff]
  intro i _
  rw [if_neg]
  simp [isLocalMax, getD_replicate_zero]

lemma listMaxQ_init_le (init : ℚ) (l : List ℚ) : init ≤ listMaxQ init l := by
  induction l generalizing init with
  | nil => exact le_refl _
  | cons x xs ih => exact le_trans (le_max_left init x) (ih (max init x))

lemma listMaxQ_le_of_mem {x : ℚ} {l : List ℚ} (init : ℚ) (hx : x ∈ l) :
    x ≤ listMaxQ init l := by
  induction l generalizing init with
  | nil => cases hx
  | cons y ys ih =>
      rcases List.mem_cons.mp hx with rfl | hmem
      · exact le_trans (le_max_right init x) (listMaxQ_init_le _ ys)
      · exact ih (max init y) hmem

lemma listMaxQ_le {c : ℚ} {l : List ℚ} (init : ℚ) (h0 : init ≤ c)
    (h : ∀ x ∈ l, x ≤ c) : listMaxQ init l ≤ c := by
  induction l generalizing init with
  | nil => exact h0
  | cons y ys ih =>
      exact ih (max init y) (max_le h0 (h y (List.mem_cons_self y ys)))
        (fun x hx => h x (List.mem_cons_of_mem y hx))

lemma listMaxQ_append (init : ℚ) (l : List ℚ) (y : ℚ) :
    listMaxQ init (l ++ [y]) = max (listMaxQ init l) y := by
  simp [listMaxQ, List.foldl_append]

lemma listMaxQ_eq_of_top {m : ℚ} {l : List ℚ} (init : ℚ) (hm : m ∈ l)
    (hub : ∀ x ∈ l, x ≤ m) (hinit : init ≤ m) : listMaxQ init l = m :=
  le_antisymm (listMaxQ_le init hinit hub) (listMaxQ_le_of_mem init hm)

/-! ## C1, C7 -/

/-- C1: the harmonic comb score of `combScoreAtLag` does **not** equal
`[ACF(l) + 0.5·ACF(2l) + 0.33·ACF(3l)] / 1.83`.  The source reads the
harmonics at buffer **indices** `2·idx` and `3·idx` where `idx = l - minLag`,
i.e. at true lags `2l - minLag` and `3l - 2·minLag`, not at lags `2l`, `3l`.
Counterexample: buffer `[0,0,1,0,0,0,0,0,0,0]` (lags `minLag = 2 .. 11`),
candidate lag `l = 3`: the code scores `(0 + 0.5·1 + 0)/1.83 = 50/183`,
the claimed formula gives `0`. -/
theorem combScore_misindexes_harmonics :
    combScoreAtLag [0, 0, 1, 0, 0, 0, 0, 0, 0, 0] (3 - 2) = 50 / 183 ∧
    specCombScore [0, 0, 1, 0, 0, 0, 0, 0, 0, 0] 2 3 = 0 ∧
    (50 / 183 : ℚ) ≠ 0 := by
  refine ⟨?_, ?_, by norm_num⟩
  · norm_num [combScoreAtLag]
    simp
    norm_num
  · norm_num [specCombScore]
    simp

lemma succ_mod_eq_zero_iff (n K : ℕ) (hK : 1 ≤ K) :
    (n + 1) % K = 0 ↔ n % K = K - 1 := by
  rcases eq_or_lt_of_le hK with h1 | h2
  · simp [← h1]
  · constructor
    · intro h
      have h2' : (n % K + 1 % K) % K = 0 := by rw [← Nat.add_mod]; exact h
      rw [Nat.mod_eq_of_lt h2] at h2'
      have hd : K ∣ n % K + 1 := (Nat.dvd_iff_mod_eq_zero).mpr h2'
      have hb : n % K < K := Nat.mod_lt _ (by omega)
      have := Nat.le_of_dvd (by omega) hd
      omega
    · intro h
      rw [Nat.add_mod, h, Nat.mod_eq_of_lt h2]
      have he : K - 1 + 1 = K := by omega
      rw [he, Nat.mod_self]

lemma ceil_toNat_cast (F : ℚ) (hF : 0 < F) :
    ((⌈F⌉.toNat : ℕ) : ℚ) = ((⌈F⌉ : ℤ) : ℚ) := by
  have hc := Int.ceil_pos.mpr hF
  have h : ((⌈F⌉.toNat : ℕ) : ℤ) = ⌈F⌉ := Int.toNat_of_nonneg (by omega)
  exact_mod_cast congrArg (fun z : ℤ => (z : ℚ)) h

/-- The counter threshold test, reduced to arithmetic on hop counts:
with `K = ⌈F⌉`, the test `F ≤ (n % K) + 1` holds iff `n % K = K - 1`. -/
lemma acf_threshold_iff (F : ℚ) (hF : 0 < F) (n : ℕ) :
    (F ≤ ((n % ⌈F⌉.toNat : ℕ) : ℚ) + 1) ↔ n % ⌈F⌉.toNat = ⌈F⌉.toNat - 1 := by
  have hc := Int.ceil_pos.mpr hF
  have hK : 1 ≤ ⌈F⌉.toNat := by omega
  have hcast : ((⌈F⌉.toNat : ℕ) : ℚ) = ((⌈F⌉ : ℤ) : ℚ) := ceil_toNat_cast F hF
  have hmlt : n % ⌈F⌉.toNat < ⌈F⌉.toNat := Nat.mod_lt _ (by omega)
  constructor
  · intro h
    by_contra hne
    have hle : n % ⌈F⌉.toNat ≤ ⌈F⌉.toNat - 2 := by omega
    have hcast2 : ((n % ⌈F⌉.toNat : ℕ) : ℚ) + 1 ≤ ((⌈F⌉.toNat : ℕ) : ℚ) - 1 := by
      have := (Nat.cast_le (α := ℚ)).mpr hle
      have h2 : ((⌈F⌉.toNat - 2 : ℕ) : ℚ) = ((⌈F⌉.toNat : ℕ) : ℚ) - 2 := by
        have : (2 : ℕ) ≤ ⌈F⌉.toNat := by omega
        push_cast [Nat.cast_sub this]
        ring
      linarith [this, h2.le, h2.ge]
    have hup : ((⌈F⌉ : ℤ) : ℚ) < F + 1 := Int.ceil_lt_add_one F
    rw [hcast] at hcast2
    linarith
  · intro h
    have hFle : F ≤ ((⌈F⌉ : ℤ) : ℚ) := Int.le_ceil F
    have : ((n % ⌈F⌉.toNat : ℕ) : ℚ) + 1 = ((⌈F⌉.toNat : ℕ) : ℚ) := by
      rw [h]
      have : (⌈F⌉.toNat - 1 : ℕ) + 1 = ⌈F⌉.toNat := by omega
      exact_mod_cast congrArg (fun m : ℕ => (m : ℚ)) this
    rw [this, hcast]
    exact hFle

/-- C2 (amended, deterministic part): the BpmTracker re-estimation points are
functions of the elapsed hop count alone: after `n` hops the `lastACFTime`
counter equals `n mod ⌈framesPerUpdate⌉`, and `maybeComputeTempo` fires at
hop `n + 1` iff `n + 1` is a multiple of `⌈framesPerUpdate⌉` — no wall-clock
dependence.  (The KeyDetector publish gate, in contrast, depends on the
wall clock; see the counterexample.) -/
theorem reestimate_points_hop_deterministic (sr : ℚ) (hsr : 0 < sr) (n : ℕ) :
    acfTimeAfter (framesPerUpdate sr) n
        = ((n % ⌈framesPerUpdate sr⌉.toNat : ℕ) : ℚ) ∧
    (acfFiresAt (framesPerUpdate sr) n = true ↔
        (n + 1) % ⌈framesPerUpdate sr⌉.toNat = 0) := by
  have hF : 0 < framesPerUpdate sr := by
    unfold framesPerUpdate envRate
    positivity
  set F := framesPerUpdate sr with hFdef
  set K := ⌈F⌉.toNat with hKdef
  have hc0 := Int.ceil_pos.mpr hF
  have hK : 1 ≤ K := by omega
  have hstate : ∀ m : ℕ, acfTimeAfter F m = ((m % K : ℕ) : ℚ) := by
    intro m
    induction m with
    | zero => simp [acfTimeAfter]
    | succ m ih =>
        show (acfTick F (acfTimeAfter F m)).1 = _
        rw [ih]
        unfold acfTick
        by_cases hc : F ≤ ((m % K : ℕ) : ℚ) + 1
        · rw [if_pos hc]
          have hm := (acf_threshold_iff F hF m).mp hc
          have hz : (m + 1) % K = 0 := (succ_mod_eq_zero_iff m K hK).mpr hm
          simp [hz]
        · rw [if_neg hc]
          have hm : m % K ≠ K - 1 := fun h => hc ((acf_threshold_iff F hF m).mpr h)
          have hmlt : m % K < K := Nat.mod_lt _ (by omega)
          have hK2 : 2 ≤ K := by omega
          have hsucc : (m + 1) % K = m % K + 1 := by
            rw [Nat.add_mod, Nat.mod_eq_of_lt (show 1 < K by omega),
                Nat.mod_eq_of_lt (show m % K + 1 < K by omega)]
          rw [hsucc]
          push_cast
          ring
  refine ⟨hstate n, ?_⟩
  unfold acfFiresAt acfTick
  rw [hstate n]
  by_cases hc : F ≤ ((n % K : ℕ) : ℚ) + 1
  · rw [if_pos hc]
    simp only [true_iff]
    exact (succ_mod_eq_zero_iff n K hK).mpr ((acf_threshold_iff F hF n).mp hc)
  · rw [if_neg hc]
    simp only [Bool.false_eq_true, false_iff]
    intro hz
    exact hc ((acf_threshold_iff F hF n).mpr ((succ_mod_eq_zero_iff n K hK).mp hz))

lemma laResolveBpm_bounds (lo hi raw : ℚ) (h0 : 0 ≤ lo) (h80 : lo ≤ 80)
    (h160 : 160 ≤ hi) : lo ≤ laResolveBpm lo hi raw ∧ laResolveBpm lo hi raw ≤ hi := by
  have hlh : lo ≤ hi := by linarith
  have hj := jlimit_bounds lo hi raw hlh
  unfold laResolveBpm octaveCorrect
  split_ifs with h1 h2 <;> constructor <;> linarith [hj.1, hj.2]

lemma laEmaStep_bounds (lo hi smoothing prevEMA med : ℚ) (hs0 : 0 ≤ smoothing)
    (hs1 : smoothing ≤ 1) (hm : lo ≤ med ∧ med ≤ hi)
    (hp : prevEMA ≤ 0 ∨ (lo ≤ prevEMA ∧ prevEMA ≤ hi)) :
    lo ≤ laEmaStep smoothing prevEMA med ∧ laEmaStep smoothing prevEMA med ≤ hi := by
  unfold laEmaStep
  split_ifs with hz
  · have he : smoothing * med + (1 - smoothing) * med = med := by ring
    rw [he]
    exact hm
  · have hpr : lo ≤ prevEMA ∧ prevEMA ≤ hi := by
      rcases hp with h | h
      · exact absurd h hz
      · exact h
    constructor
    · nlinarith [mul_nonneg hs0 (sub_nonneg.mpr hpr.1),
        mul_nonneg (sub_nonneg.mpr hs1) (sub_nonneg.mpr hm.1)]
    · nlinarith [mul_nonneg hs0 (sub_nonneg.mpr hpr.2),
        mul_nonneg (sub_nonneg.mpr hs1) (sub_nonneg.mpr hm.2)]

lemma hist_if_range (old : List ℚ) (cand : ℚ)
    (hold : ∀ x ∈ old, 60 ≤ x ∧ x ≤ 200) (hc : 60 ≤ cand ∧ cand ≤ 200) :
    (∀ x ∈ (if 8 < (old ++ [cand]).length then (old ++ [cand]).drop 1
            else old ++ [cand]), 60 ≤ x ∧ x ≤ 200) ∧
    (if 8 < (old ++ [cand]).length then (old ++ [cand]).drop 1
     else old ++ [cand]) ≠ [] := by
  constructor
  · intro x hx
    have hx' : x ∈ old ++ [cand] := by
      split_ifs at hx with h8
      · exact List.drop_subset 1 _ hx
      · exact hx
    rcases List.mem_append.mp hx' with hmem | hmem
    · exact hold x hmem
    · rcases List.mem_singleton.mp hmem with rfl
      exact hc
  · split_ifs with h8
    · apply List.ne_nil_of_length_pos
      rw [List.length_drop]
      omega
    · simp

/-- C5: every BPM the tempo estimator stores or publishes stays in
`[minBPM, maxBPM]`.  BpmTracker part (`minBPM = 60`, `maxBPM = 200`): a
`maybeComputeTempo` pass keeps every debounce-history entry in range and
either leaves `currentBpm` untouched or stores a value in range.
LiveAnalyzer part: one `computeBpmAndPublish` resolution —
clamp, octave correction, 8-entry median, EMA — publishes inside `[lo, hi]`
whenever `lo ≤ 80 ≤ 160 ≤ hi` (defaults 60/200), the smoothing is in `[0,1]`
(default 0.7), the median ring holds in-range values and the previous EMA is
unset (≤ 0) or in range. -/
theorem bpm_always_in_range :
    (∀ (sr : ℚ) (s : TrackerState),
        (∀ x ∈ s.bpmHistory, 60 ≤ x ∧ x ≤ 200) →
        (∀ x ∈ (maybeComputeTempo sr s).bpmHistory, 60 ≤ x ∧ x ≤ 200) ∧
        ((maybeComputeTempo sr s).currentBpm = s.currentBpm ∨
          (60 ≤ (maybeComputeTempo sr s).currentBpm ∧
            (maybeComputeTempo sr s).currentBpm ≤ 200))) ∧
    (∀ lo hi smoothing prevEMA raw : ℚ, ∀ recent : List ℚ,
        0 ≤ lo → lo ≤ 80 → 160 ≤ hi → 0 ≤ smoothing → smoothing ≤ 1 →
        (∀ x ∈ recent, lo ≤ x ∧ x ≤ hi) →
        (prevEMA ≤ 0 ∨ (lo ≤ prevEMA ∧ prevEMA ≤ hi)) →
        lo ≤ laPublishBpm lo hi smoothing recent prevEMA raw ∧
          laPublishBpm lo hi smoothing recent prevEMA raw ≤ hi) := by
  constructor
  · intro sr s hhist
    by_cases hg : (s.onsetEnv.length : ℤ) < ⌊(5 / 2 : ℚ) * envRate sr⌋
    · unfold maybeComputeTempo
      rw [if_pos hg]
      exact ⟨hhist, Or.inl rfl⟩
    · unfold maybeComputeTempo
      rw [if_neg hg]
      by_cases he : (computeAcf (demeanedEnv s.onsetEnv) (bpmToLag sr 200)
          (jlimit 2 (max 2 ((s.onsetEnv.length : ℤ) - 2)) (bpmToLag sr 60))).isEmpty = true
      · rw [if_pos he]
        exact ⟨hhist, Or.inl rfl⟩
      · rw [if_neg he]
        by_cases hp : (((peakPick (computeAcf (demeanedEnv s.onsetEnv) (bpmToLag sr 200)
            (jlimit 2 (max 2 ((s.onsetEnv.length : ℤ) - 2)) (bpmToLag sr 60)))
            (bpmToLag sr 200)).insertionSort fun a b => b.2 ≤ a.2).take 5).isEmpty = true
        · rw [if_pos hp]
          exact ⟨hhist, Or.inl rfl⟩
        · rw [if_neg hp]
          have hcb := jlimit_bounds 60 200 (lagToBpm sr
            (bestPeak (computeAcf (demeanedEnv s.onsetEnv) (bpmToLag sr 200)
              (jlimit 2 (max 2 ((s.onsetEnv.length : ℤ) - 2)) (bpmToLag sr 60)))
              (bpmToLag sr 200)
              (jlimit 2 (max 2 ((s.onsetEnv.length : ℤ) - 2)) (bpmToLag sr 60))
              (((peakPick (computeAcf (demeanedEnv s.onsetEnv) (bpmToLag sr 200)
                (jlimit 2 (max 2 ((s.onsetEnv.length : ℤ) - 2)) (bpmToLag sr 60)))
                (bpmToLag sr 200)).insertionSort fun a b => b.2 ≤ a.2).take 5)).2)
            (by norm_num)
          have hh := hist_if_range s.bpmHistory _ hhist hcb
          exact ⟨hh.1, Or.inr (medianQ_bounds _ 60 200 hh.2 hh.1)⟩
  · intro lo hi smoothing prevEMA raw recent h0 h80 h160 hs0 hs1 hrec hprev
    unfold laPublishBpm
    have hres := laResolveBpm_bounds lo hi raw h0 h80 h160
    have hpush : ∀ x ∈ laRecentPush recent (laResolveBpm lo hi raw),
        lo ≤ x ∧ x ≤ hi := by
      intro x hx
      unfold laRecentPush at hx
      split_ifs at hx with h8 <;> rcases List.mem_append.mp hx with hx | hx
      · exact hrec x hx
      · rcases List.mem_singleton.mp hx with rfl
        exact hres
      · exact hrec x (List.drop_subset 1 _ hx)
      · rcases List.mem_singleton.mp hx with rfl
        exact hres
    have hne : laRecentPush recent (laResolveBpm lo hi raw) ≠ [] := by
      unfold laRecentPush
      split_ifs <;> simp
    have hmedb : lo ≤ laMedian (laRecentPush recent (laResolveBpm lo hi raw)) ∧
        laMedian (laRecentPush recent (laResolveBpm lo hi raw)) ≤ hi := by
      rw [laMedian_eq_medianQ _ hne]
      exact medianQ_bounds _ lo hi hne hpush
    exact laEmaStep_bounds lo hi smoothing prevEMA _ hs0 hs1 hmedb hprev

lemma maybeComputeTempo_retains (sr : ℚ) (s : TrackerState)
    (hp : peakPick (computeAcf (demeanedEnv s.onsetEnv) (bpmToLag sr 200)
        (jlimit 2 (max 2 ((s.onsetEnv.length : ℤ) - 2)) (bpmToLag sr 60)))
      (bpmToLag sr 200) = []) :
    (maybeComputeTempo sr s).currentBpm = s.currentBpm ∧
    (maybeComputeTempo sr s).currentConf = s.currentConf ∧
    (maybeComputeTempo sr s).bpmHistory = s.bpmHistory := by
  by_cases hg : (s.onsetEnv.length : ℤ) < ⌊(5 / 2 : ℚ) * envRate sr⌋
  · unfold maybeComputeTempo
    rw [if_pos hg]
    exact ⟨rfl, rfl, rfl⟩
  · unfold maybeComputeTempo
    rw [if_neg hg]
    by_cases he : (computeAcf (demeanedEnv s.onsetEnv) (bpmToLag sr 200)
        (jlimit 2 (max 2 ((s.onsetEnv.length : ℤ) - 2)) (bpmToLag sr 60))).isEmpty = true
    · rw [if_pos he]
      exact ⟨rfl, rfl, rfl⟩
    · rw [if_neg he, hp]
      rw [if_pos (show ((List.insertionSort (fun a b : ℤ × ℚ => b.2 ≤ a.2)
        []).take 5).isEmpty = true from rfl)]
      exact ⟨rfl, rfl, rfl⟩

/-- C9: numeric edge cases degrade to "no update": null or non-positive-length
input to `processMono` is a no-op; a tempo re-estimation with less than 2.5 s
of envelope returns the state unchanged; a zero-energy (demeaned) envelope or
an empty autocorrelation peak list leaves the published BPM, confidence and
debounce history unchanged.  (All model functions are total: no failure
signal exists.) -/
theorem edge_cases_no_update :
    (∀ (σ : Type) (frameStep : σ → List ℚ → σ) (st : σ × List ℚ) (n : ℤ),
        processMonoModel frameStep st none n = st) ∧
    (∀ (σ : Type) (frameStep : σ → List ℚ → σ) (st : σ × List ℚ) (vs : List ℚ)
        (n : ℤ), n ≤ 0 → processMonoModel frameStep st (some vs) n = st) ∧
    (∀ (sr : ℚ) (s : TrackerState),
        (s.onsetEnv.length : ℤ) < ⌊(5 / 2 : ℚ) * envRate sr⌋ →
        maybeComputeTempo sr s = s) ∧
    (∀ (sr : ℚ) (s : TrackerState),
        energyOf (demeanedEnv s.onsetEnv) < 1 / 10 ^ 12 →
        (maybeComputeTempo sr s).currentBpm = s.currentBpm ∧
        (maybeComputeTempo sr s).currentConf = s.currentConf ∧
        (maybeComputeTempo sr s).bpmHistory = s.bpmHistory) ∧
    (∀ (sr : ℚ) (s : TrackerState),
        peakPick (computeAcf (demeanedEnv s.onsetEnv) (bpmToLag sr 200)
            (jlimit 2 (max 2 ((s.onsetEnv.length : ℤ) - 2)) (bpmToLag sr 60)))
          (bpmToLag sr 200) = [] →
        (maybeComputeTempo sr s).currentBpm = s.currentBpm ∧
        (maybeComputeTempo sr s).currentConf = s.currentConf ∧
        (maybeComputeTempo sr s).bpmHistory = s.bpmHistory) := by
  refine ⟨?_, ?_, ?_, ?_, ?_⟩
  · intro σ frameStep st n
    rfl
  · intro σ frameStep st vs n hn
    simp [processMonoModel, hn]
  · intro sr s hg
    unfold maybeComputeTempo
    rw [if_pos hg]
  · intro sr s he
    obtain ⟨len, hacf⟩ : ∃ len, computeAcf (demeanedEnv s.onsetEnv)
        (bpmToLag sr 200)
        (jlimit 2 (max 2 ((s.onsetEnv.length : ℤ) - 2)) (bpmToLag sr 60))
        = List.replicate len 0 := by
      simp only [computeAcf]
      rw [if_pos he]
      exact ⟨_, rfl⟩
    exact maybeComputeTempo_retains sr s (by rw [hacf]; exact peakPick_replicate_zero _ _)
  · intro sr s hp
    exact maybeComputeTempo_retains sr s hp

lemma ite_gt_max (a b : ℚ) : (if b > a then b else a) = max a b := by
  rcases le_or_lt b a with h | h
  · rw [if_neg (not_lt.mpr h), max_eq_left h]
  · rw [if_pos h, max_eq_right h.le]

lemma foldl_if_gt_eq_max (f : ℕ → ℚ) (l : List ℕ) (init : ℚ) :
    l.foldl (fun b p => if f p > b then f p else b) init = listMaxQ init (l.map f) := by
  induction l generalizing init with
  | nil => rfl
  | cons x xs ih =>
      show xs.foldl _ (if f x > init then f x else init) = _
      rw [ite_gt_max, ih]
      rfl

lemma range24_nonempty : (Finset.range 24).Nonempty := ⟨0, by decide⟩

/-- C6: after the cold start, each streaming-Viterbi step sets every state
`k`'s accumulator to the maximum over all previous states `p` of
`accumulator[p] + transition(p,k)`, plus the instantaneous score of `k` —
where `transition` is `stayBias` on `p = k`, `neighborBonus` on harmonically
related states (relative major/minor, fourth/fifth within the same mode) and
`-transitionPenalty` otherwise.  The hypothesis keeps the `-1e9` fold seed of
the source below every candidate (true of all reachable accumulators, whose
entries are non-negative). -/
theorem viterbi_step_is_max_plus_inst (cfg : KDCfg) (v inst : ℕ → ℚ) (k : ℕ)
    (hlow : ∀ p, p < 24 → -(10 ^ 9 : ℚ) < v p + transition cfg p k) :
    viterbiNext cfg v inst k =
      (Finset.range 24).sup' range24_nonempty (fun p => v p + transition cfg p k)
        + inst k := by
  have key : listMaxQ (-(10 ^ 9)) ((List.range 24).map (fun p => v p + transition cfg p k)) =
      (Finset.range 24).sup' range24_nonempty (fun p => v p + transition cfg p k) := by
    apply le_antisymm
    · apply listMaxQ_le
      · exact le_of_lt (lt_of_lt_of_le (hlow 0 (by norm_num))
          (Finset.le_sup' (fun p => v p + transition cfg p k)
            (Finset.mem_range.mpr (by norm_num))))
      · intro x hx
        obtain ⟨p, hp, rfl⟩ := List.mem_map.mp hx
        exact Finset.le_sup' (fun p => v p + transition cfg p k)
          (Finset.mem_range.mpr (List.mem_range.mp hp))
    · apply Finset.sup'_le
      intro p hp
      exact listMaxQ_le_of_mem _
        (List.mem_map.mpr ⟨p, List.mem_range.mpr (Finset.mem_range.mp hp), rfl⟩)
  unfold viterbiNext bestPrevFold
  rw [foldl_if_gt_eq_max (fun p => v p + transition cfg p k), key]

/-- Witness for C6 at the default settings, the zero accumulator and zero
instantaneous scores, state 0. -/
theorem viterbi_step_is_max_plus_inst_witness :
    viterbiNext kdDefault (fun _ => 0) (fun _ => 0) 0 =
      (Finset.range 24).sup' range24_nonempty
        (fun p => (fun _ => (0 : ℚ)) p + transition kdDefault p 0)
        + (fun _ => (0 : ℚ)) 0 := by
  apply viterbi_step_is_max_plus_inst kdDefault (fun _ => 0) (fun _ => 0) 0
  intro p hp
  have hb : -(1 / 25 : ℚ) ≤ transition kdDefault p 0 := by
    unfold transition
    split_ifs <;> norm_num [kdDefault]
  have : (0 : ℚ) + -(1 / 25) ≤ (fun _ => (0 : ℚ)) p + transition kdDefault p 0 := by
    simpa using hb
  nlinarith [this]

/-- Witness for C2's amended theorem at the default 44.1 kHz sample rate and
hop 21 (the first hop at which the tempo re-estimation fires is hop 22). -/
theorem reestimate_points_hop_deterministic_witness :
    acfTimeAfter (framesPerUpdate 44100) 21
        = ((21 % ⌈framesPerUpdate 44100⌉.toNat : ℕ) : ℚ) ∧
    (acfFiresAt (framesPerUpdate 44100) 21 = true ↔
        (21 + 1) % ⌈framesPerUpdate 44100⌉.toNat = 0) :=
  reestimate_points_hop_deterministic 44100 (by norm_num) 21

/-- Witness for C5: the BpmTracker part at a state with an empty history and
the LiveAnalyzer part at the default configuration (60/200, smoothing 0.7),
empty median ring, unset EMA and a wild raw BPM of 500. -/
theorem bpm_always_in_range_witness :
    ((∀ x ∈ (maybeComputeTempo 512 ⟨[], [], 0, 0, []⟩).bpmHistory,
        60 ≤ x ∧ x ≤ 200) ∧
      ((maybeComputeTempo 512 ⟨[], [], 0, 0, []⟩).currentBpm
          = (⟨[], [], 0, 0, []⟩ : TrackerState).currentBpm ∨
        (60 ≤ (maybeComputeTempo 512 ⟨[], [], 0, 0, []⟩).currentBpm ∧
          (maybeComputeTempo 512 ⟨[], [], 0, 0, []⟩).currentBpm ≤ 200))) ∧
    (60 ≤ laPublishBpm 60 200 (7 / 10) [] 0 500 ∧
      laPublishBpm 60 200 (7 / 10) [] 0 500 ≤ 200) :=
  ⟨bpm_always_in_range.1 512 ⟨[], [], 0, 0, []⟩ (by simp),
   bpm_always_in_range.2 60 200 (7 / 10) 0 500 [] (by norm_num) (by norm_num)
     (by norm_num) (by norm_num) (by norm_num) (by simp) (Or.inl le_rfl)⟩

/-- Witness for C9: null input, zero-length input, a 1-sample envelope at
`sr = 512` (below the 2.5 s minimum of 2 hops), and an all-zero 3-sample
envelope (zero energy after demeaning, hence an all-zero ACF and no peaks). -/
theorem edge_cases_no_update_witness :
    processMonoModel (fun (u : Unit) _ => u) ((), []) none 1 = ((), []) ∧
    processMonoModel (fun (u : Unit) _ => u) ((), []) (some [1]) 0 = ((), []) ∧
    maybeComputeTempo 512 ⟨[0], [], 3, 4, []⟩ = ⟨[0], [], 3, 4, []⟩ ∧
    ((maybeComputeTempo 512 ⟨[0, 0, 0], [2], 5, 7, [9]⟩).currentBpm
        = (⟨[0, 0, 0], [2], 5, 7, [9]⟩ : TrackerState).currentBpm ∧
      (maybeComputeTempo 512 ⟨[0, 0, 0], [2], 5, 7, [9]⟩).currentConf
        = (⟨[0, 0, 0], [2], 5, 7, [9]⟩ : TrackerState).currentConf ∧
      (maybeComputeTempo 512 ⟨[0, 0, 0], [2], 5, 7, [9]⟩).bpmHistory
        = (⟨[0, 0, 0], [2], 5, 7, [9]⟩ : TrackerState).bpmHistory) := by
  refine ⟨edge_cases_no_update.1 Unit _ _ _, edge_cases_no_update.2.1 Unit _ _ _ 0 le_rfl,
    edge_cases_no_update.2.2.1 512 _ ?_, edge_cases_no_update.2.2.2.1 512 _ ?_⟩
  · show ((1 : ℕ) : ℤ) < ⌊(5 / 2 : ℚ) * envRate 512⌋
    norm_num [envRate]
  · show energyOf (demeanedEnv [0, 0, 0]) < 1 / 10 ^ 12
    norm_num [energyOf, demeanedEnv]

/-- C7: the first analyzed frame does **not** produce spectral flux 0.
`prevBandMag` is constructed as six zeros (`initPrevBandMag`), so the
`!prevBandMag.empty()` guard — evidently meant to zero the first frame — never
fires, and the first frame's flux is the sum of its positive band energies:
for band energies all 1 the flux is 6, not 0. -/
theorem first_frame_flux_nonzero :
    spectralFlux initPrevBandMag [1, 1, 1, 1, 1, 1] = 6 ∧ (6 : ℚ) ≠ 0 := by
  constructor
  · norm_num [spectralFlux, initPrevBandMag, List.replicate]
  · norm_num

/-! ## RingBuffer lemmas -/

lemma mod_add_ne (cap r : ℕ) {i j : ℕ} (hi : i < cap) (hj : j < cap)
    (hne : i ≠ j) : (r + i) % cap ≠ (r + j) % cap := by
  intro heq
  have h2 : i ≡ j [MOD cap] :=
    Nat.ModEq.add_left_cancel (Nat.ModEq.refl r) (heq : (r + i) % cap = (r + j) % cap)
  have h3 : i % cap = j % cap := h2
  rw [Nat.mod_eq_of_lt hi, Nat.mod_eq_of_lt hj] at h3
  exact hne h3

lemma writeSeq_notin (cap : ℕ) (m : ℕ) (vs : List ℚ) :
    ∀ (buf : ℕ → ℚ) (w : ℕ), (∀ i, i < vs.length → m ≠ (w + i) % cap) →
    writeSeq cap buf w vs m = buf m := by
  induction vs with
  | nil => intro buf w _; rfl
  | cons v rest ih =>
      intro buf w h
      show writeSeq cap (fun j => if j = w % cap then v else buf j) (w + 1) rest m
          = buf m
      rw [ih _ (w + 1) ?later]
      case later =>
        intro i hi
        have hx := h (i + 1) (by simpa using Nat.succ_lt_succ hi)
        have he : w + (i + 1) = w + 1 + i := by omega
        rw [he] at hx
        exact hx
      have h0 := h 0 (by simp)
      simp only [Nat.add_zero] at h0
      rw [if_neg h0]

lemma writeSeq_at (cap : ℕ) (vs : List ℚ) (hlen : vs.length ≤ cap) :
    ∀ (buf : ℕ → ℚ) (w i : ℕ), i < vs.length →
    writeSeq cap buf w vs ((w + i) % cap) = vs.getD i 0 := by
  induction vs with
  | nil => intro _ _ i hi; cases hi
  | cons v rest ih =>
      intro buf w i hi
      cases i with
      | zero =>
          show writeSeq cap (fun j => if j = w % cap then v else buf j) (w + 1)
              rest ((w + 0) % cap) = v
          rw [writeSeq_notin cap _ rest _ (w + 1) ?nohit]
          case nohit =>
            intro j hj
            have he1 : w + 0 = w := by omega
            have he2 : w + 1 + j = w + (1 + j) := by omega
            rw [he1, he2]
            have := mod_add_ne cap w (i := 0) (j := 1 + j)
              (by simp at hlen ⊢; omega) (by simp at hlen ⊢; omega) (by omega)
            simpa using this
          have he1 : (w + 0) % cap = w % cap := by norm_num
          rw [he1, if_pos rfl]
      | succ i' =>
          show writeSeq cap (fun j => if j = w % cap then v else buf j) (w + 1)
              rest ((w + (i' + 1)) % cap) = rest.getD i' 0
          have he : w + (i' + 1) = w + 1 + i' := by omega
          rw [he]
          exact ih (by simp at hlen; omega) _ (w + 1) i' (by simpa using hi)

lemma push_sim (s : RBState) (q vs : List ℚ) (h : RBinv s q) :
    RBinv (pushMono s vs).1 (queuePush s.cap q vs) ∧
    (pushMono s vs).2 = min vs.length (s.cap - 1 - q.length) ∧
    (pushMono s vs).1.cap = s.cap ∧
    (pushMono s vs).1.dropped
      = s.dropped + (vs.length - min vs.length (s.cap - 1 - q.length)) := by
  obtain ⟨hrw, hsz, hbound, hcap, hread⟩ := h
  have hw : s.w = s.r + q.length := by omega
  have hfree : s.cap - 1 - (s.w - s.r) = s.cap - 1 - q.length := by rw [hsz]
  set t := min vs.length (s.cap - 1 - (s.w - s.r)) with ht
  have ht' : t = min vs.length (s.cap - 1 - q.length) := by rw [ht, hfree]
  have htake : (vs.take (s.cap - 1 - q.length)).length = t := by
    rw [List.length_take, ht']
    omega
  have htle : t ≤ s.cap - 1 - q.length := by omega
  refine ⟨⟨by simp [pushMono]; omega, ?len, ?bnd, by simpa [pushMono] using hcap, ?read⟩,
    by simp [pushMono]; omega, by simp [pushMono], by simp [pushMono]; omega⟩
  case len =>
    show s.w + t - s.r = (queuePush s.cap q vs).length
    rw [queuePush, List.length_append, htake]
    omega
  case bnd =>
    show (queuePush s.cap q vs).length ≤ s.cap - 1
    rw [queuePush, List.length_append, htake]
    omega
  case read =>
    intro i hilt
    show writeSeq s.cap s.buf s.w (vs.take t) ((s.r + i) % s.cap)
        = (q ++ vs.take (s.cap - 1 - q.length)).getD i 0
    have hlen2 : (queuePush s.cap q vs).length = q.length + t := by
      rw [queuePush, List.length_append, htake]
    rw [queuePush] at hilt
    rw [List.length_append, htake] at hilt
    rcases lt_or_ge i q.length with hiq | hiq
    · rw [writeSeq_notin s.cap _ (vs.take t) s.buf s.w ?nohit]
      case nohit =>
        intro j hj
        rw [List.length_take] at hj
        have hjt : j < t := by omega
        rw [hw]
        have he : s.r + q.length + j = s.r + (q.length + j) := by omega
        rw [he]
        exact mod_add_ne s.cap s.r (by omega) (by omega) (by omega)
      rw [List.getD_append _ _ _ _ hiq]
      exact hread i (by omega)
    · obtain ⟨j, rfl⟩ : ∃ j, i = q.length + j := ⟨i - q.length, by omega⟩
      have hjt : j < t := by omega
      have he : s.r + (q.length + j) = s.w + j := by omega
      rw [he, writeSeq_at s.cap (vs.take t) (by rw [List.length_take]; omega)
        s.buf s.w j (by rw [List.length_take]; omega)]
      rw [List.getD_append_right _ _ _ _ (by omega)]
      have he2 : q.length + j - q.length = j := by omega
      rw [he2]
      have hv1 : (vs.take t).getD j 0 = vs.getD j 0 := by
        simp [List.getD_eq_getElem?_getD, List.getElem?_take, hjt]
      have hv2 : (vs.take (s.cap - 1 - q.length)).getD j 0 = vs.getD j 0 := by
        simp [List.getD_eq_getElem?_getD, List.getElem?_take, show j < s.cap - 1 - q.length by omega]
      rw [hv1, hv2]

lemma pop_sim (s : RBState) (q : List ℚ) (n : ℕ) (h : RBinv s q) :
    RBinv (popRB s n).1 (q.drop n) ∧ (popRB s n).2 = q.take n ∧
    (popRB s n).1.cap = s.cap ∧ (popRB s n).2.length = min (s.w - s.r) n := by
  obtain ⟨hrw, hsz, hbound, hcap, hread⟩ := h
  set t := min (s.w - s.r) n with ht
  have htq : t = min q.length n := by omega
  refine ⟨⟨by simp [popRB]; omega, ?len, ?bnd, by simpa [popRB] using hcap, ?read⟩,
    ?out, by simp [popRB], by simp [popRB]⟩
  case len =>
    show s.w - (s.r + t) = (q.drop n).length
    rw [List.length_drop]
    omega
  case bnd =>
    show (q.drop n).length ≤ s.cap - 1
    rw [List.length_drop]
    omega
  case read =>
    intro i hilt
    rw [List.length_drop] at hilt
    have hn : n < q.length := by omega
    have htn : t = n := by omega
    show s.buf ((s.r + t + i) % s.cap) = (q.drop n).getD i 0
    have he : s.r + t + i = s.r + (n + i) := by omega
    rw [he]
    have hgd : (q.drop n).getD i 0 = q.getD (n + i) 0 := by
      simp [List.getD_eq_getElem?_getD, List.getElem?_drop]
    rw [hgd]
    exact hread (n + i) (by omega)
  case out =>
    show (List.range t).map (fun i => s.buf ((s.r + i) % s.cap)) = q.take n
    apply List.ext_getElem
    · rw [List.length_map, List.length_range, List.length_take]
      omega
    · intro i h1 h2
      rw [List.length_map, List.length_range] at h1
      rw [List.getElem_map, List.getElem_range]
      rw [List.getElem_take]
      have hiq : i < q.length := by omega
      have := hread i (by omega)
      rw [List.getD_eq_getElem _ _ hiq] at this
      exact this

lemma reset_cap_props (req : ℕ) :
    (∃ k : ℕ, (resetState req).cap = 2 ^ k) ∧ 256 ≤ (resetState req).cap := by
  show (∃ k : ℕ, growCap 256 req = 2 ^ k) ∧ 256 ≤ growCap 256 req
  have main : ∀ cap req : ℕ, (∃ k : ℕ, cap = 2 ^ k) → 256 ≤ cap →
      (∃ k : ℕ, growCap cap req = 2 ^ k) ∧ 256 ≤ growCap cap req := by
    intro cap req
    induction cap, req using growCap.induct with
    | case1 cap req hcond ih =>
        intro hp h256
        unfold growCap
        rw [dif_pos hcond]
        apply ih
        · obtain ⟨k, rfl⟩ := hp
          exact ⟨k + 1, by ring⟩
        · omega
    | case2 cap req hcond =>
        intro hp h256
        unfold growCap
        rw [dif_neg hcond]
        exact ⟨hp, h256⟩
  exact main 256 req ⟨8, by norm_num⟩ (by norm_num)

lemma reset_inv (req : ℕ) : RBinv (resetState req) [] := by
  refine ⟨le_refl 0, rfl, by simp, (reset_cap_props req).2, ?_⟩
  intro i hi
  cases hi

lemma run_sim (ops : List RBOp) : ∀ (s : RBState) (q : List ℚ), RBinv s q →
    RBinv (runRB s ops).1 (runQ s.cap q ops).1 ∧
    (runRB s ops).2 = (runQ s.cap q ops).2 ∧
    (runRB s ops).1.cap = s.cap := by
  induction ops with
  | nil => intro s q h; exact ⟨h, rfl, rfl⟩
  | cons op rest ih =>
      intro s q h
      cases op with
      | push vs =>
          have hp := push_sim s q vs h
          have hstep := ih (pushMono s vs).1 (queuePush s.cap q vs) hp.1
          have hcap : (pushMono s vs).1.cap = s.cap := hp.2.2.1
          rw [hcap] at hstep
          exact ⟨hstep.1, hstep.2.1, hstep.2.2⟩
      | pop n =>
          have hp := pop_sim s q n h
          have hstep := ih (popRB s n).1 (q.drop n) hp.1
          have hcap : (popRB s n).1.cap = s.cap := hp.2.2.1
          rw [hcap] at hstep
          refine ⟨hstep.1, ?_, hstep.2.2⟩
          show (popRB s n).2 :: (runRB (popRB s n).1 rest).2
              = (queuePop q n).2 :: (runQ s.cap (queuePop q n).1 rest).2
          rw [hp.2.1, hstep.2.1]
          rfl

/-! ## KeyDetector scan lemmas -/

lemma scanFold_spec (sc : ℕ → ℚ) (l : List ℕ) :
    l ≠ [] → l.Nodup → (∀ k ∈ l, -(10 ^ 9 : ℚ) < sc k) →
    ∃ b : ℕ, b ∈ l ∧
      (l.foldl (scanStep sc) scanInit).best = (b : ℤ) ∧
      (l.foldl (scanStep sc) scanInit).sBest = sc b ∧
      (∀ k ∈ l, sc k ≤ sc b) ∧
      (l.foldl (scanStep sc) scanInit).sSecond
        = listMaxQ (-(10 ^ 9)) ((l.erase b).map sc) := by
  induction l using List.reverseRecOn with
  | nil => intro h; exact absurd rfl h
  | append_singleton xs y ih =>
      intro _ hnd hlow
      rw [List.foldl_append]
      simp only [List.foldl_cons, List.foldl_nil]
      have hnd2 : xs.Nodup ∧ y ∉ xs := by
        rw [List.nodup_append] at hnd
        exact ⟨hnd.1, fun hy => hnd.2.2 hy (List.mem_singleton_self y)⟩
      rcases eq_or_ne xs [] with rfl | hxs
      · have hy := hlow y (by simp)
        refine ⟨y, by simp, ?_, ?_, ?_, ?_⟩
        · show (scanStep sc scanInit y).best = (y : ℤ)
          unfold scanStep scanInit
          rw [if_pos (by simpa using hy)]
        · show (scanStep sc scanInit y).sBest = sc y
          unfold scanStep scanInit
          rw [if_pos (by simpa using hy)]
        · intro k hk
          rcases List.mem_singleton.mp (by simpa using hk) with rfl
          exact le_rfl
        · show (scanStep sc scanInit y).sSecond = _
          unfold scanStep scanInit
          rw [if_pos (by simpa using hy)]
          simp [listMaxQ]
      · obtain ⟨b, hbmem, hbest, hsBest, hub, hsec⟩ :=
          ih hxs hnd2.1 (fun k hk => hlow k (by simp [hk]))
        set st := xs.foldl (scanStep sc) scanInit with hst
        have hsecle : st.sSecond ≤ sc b := by
          rw [hsec]
          apply listMaxQ_le
          · exact le_of_lt (hlow b (by simp [hbmem]))
          · intro x hx
            obtain ⟨p, hp, rfl⟩ := List.mem_map.mp hx
            exact hub p (List.mem_of_mem_erase hp)
        unfold scanStep
        by_cases hc1 : sc y > st.sBest
        · rw [if_pos hc1]
          refine ⟨y, by simp, rfl, rfl, ?_, ?_⟩
          · intro k hk
            rcases List.mem_append.mp hk with hk | hk
            · exact le_of_lt (lt_of_le_of_lt (hsBest ▸ hub k hk) hc1)
            · rcases List.mem_singleton.mp hk with rfl
              exact le_rfl
          · show st.sBest = _
            rw [List.erase_append_right _ hnd2.2, List.erase_cons_head,
              List.append_nil, hsBest]
            refine (listMaxQ_eq_of_top _ (List.mem_map.mpr ⟨b, hbmem, rfl⟩) ?_ ?_).symm
            · intro x hx
              obtain ⟨p, hp, rfl⟩ := List.mem_map.mp hx
              exact hub p hp
            · exact le_of_lt (hlow b (by simp [hbmem]))
        · rw [if_neg hc1]
          have hyb : sc y ≤ sc b := hsBest ▸ not_lt.mp hc1
          have hbm2 : b ∈ xs ++ [y] := by simp [hbmem]
          have hub2 : ∀ k ∈ xs ++ [y], sc k ≤ sc b := by
            intro k hk
            rcases List.mem_append.mp hk with hk | hk
            · exact hub k hk
            · rcases List.mem_singleton.mp hk with rfl
              exact hyb
          by_cases hc2 : sc y > st.sSecond
          · rw [if_pos hc2]
            refine ⟨b, hbm2, hbest, hsBest, hub2, ?_⟩
            show sc y = _
            rw [List.erase_append_left _ hbmem, List.map_append, List.map_cons,
              List.map_nil, listMaxQ_append, ← hsec]
            exact (max_eq_right (le_of_lt hc2)).symm
          · rw [if_neg hc2]
            refine ⟨b, hbm2, hbest, hsBest, hub2, ?_⟩
            show st.sSecond = _
            rw [List.erase_append_left _ hbmem, List.map_append, List.map_cons,
              List.map_nil, listMaxQ_append, ← hsec]
            exact (max_eq_left (not_lt.mp hc2)).symm

lemma scanBest_spec (sc : ℕ → ℚ) (hlow : ∀ k, k < 24 → -(10 ^ 9 : ℚ) < sc k) :
    ∃ b : ℕ, b < 24 ∧ (scanBest sc).best = (b : ℤ) ∧ (scanBest sc).sBest = sc b ∧
      (∀ k, k < 24 → sc k ≤ sc b) ∧ (scanBest sc).sSecond = specSecondBest sc b := by
  obtain ⟨b, hb, h1, h2, h3, h4⟩ := scanFold_spec sc (List.range 24)
    (by simp) (List.nodup_range 24) (fun k hk => hlow k (List.mem_range.mp hk))
  exact ⟨b, List.mem_range.mp hb, h1, h2,
    fun k hk => h3 k (List.mem_range.mpr hk), h4⟩

/-- C3 (amended): a key result is published at a step iff all three gates
hold — dwell, margin and rate — where the margin is the best minus the
second-best biased instantaneous score **except** that a second-best score at
or below 1e-6 forces margin 1; the published confidence is `clamp01` of that
margin (and the published key is the leading state).  `b` is the leading
state: a maximizer of the biased instantaneous score. -/
theorem publish_gates_iff (cfg : KDCfg) (inst : ℕ → ℚ) (vit : ℤ) (st : PubState)
    (now : ℚ)
    (hlow : ∀ k, k < 24 → -(10 ^ 9 : ℚ) < biasedScore cfg inst vit k) :
    ∃ b : ℕ, b < 24 ∧
      (∀ k, k < 24 → biasedScore cfg inst vit k ≤ biasedScore cfg inst vit b) ∧
      ((maybePublish cfg inst vit st now).2 ≠ none ↔
        (cfg.dwellRequiredSec * 1000
            ≤ now - (if st.pendingKey ≠ (b : ℤ) then now else st.pendingSinceMs) ∧
          cfg.marginRequired ≤ specMargin (biasedScore cfg inst vit) b ∧
          cfg.publishMinIntervalSec * 1000 ≤ now - st.lastPublishMs)) ∧
      (∀ r, (maybePublish cfg inst vit st now).2 = some r →
        r.keyIndex = (b : ℤ) % 12 ∧ r.isMinor = decide (12 ≤ (b : ℤ)) ∧
        r.confidence = clamp01 (specMargin (biasedScore cfg inst vit) b)) := by
  obtain ⟨b, hb24, hbest, hsBest, hub, hsec⟩ := scanBest_spec _ hlow
  set sc := biasedScore cfg inst vit with hscdef
  set f := scanBest sc with hf
  set st1 := if st.pendingKey ≠ f.best then (⟨f.best, now, st.lastPublishMs⟩ : PubState)
    else st with hst1
  have hrun : maybePublish cfg inst vit st now =
      if cfg.dwellRequiredSec * 1000 ≤ now - st1.pendingSinceMs ∧
         cfg.marginRequired ≤ margin24 f ∧
         cfg.publishMinIntervalSec * 1000 ≤ now - st1.lastPublishMs
      then (⟨st1.pendingKey, st1.pendingSinceMs, now⟩,
            some ⟨f.best % 12, decide (12 ≤ f.best), clamp01 (margin24 f)⟩)
      else (st1, none) := rfl
  have hm : margin24 f = specMargin sc b := by
    unfold margin24 specMargin
    rw [hsec, hsBest]
  have hsince : st1.pendingSinceMs
      = if st.pendingKey ≠ (b : ℤ) then now else st.pendingSinceMs := by
    rw [hst1, hbest, apply_ite PubState.pendingSinceMs]
  have hlast : st1.lastPublishMs = st.lastPublishMs := by
    rw [hst1, apply_ite PubState.lastPublishMs, ite_self]
  refine ⟨b, hb24, hub, ?_, ?_⟩
  · rw [hrun]
    by_cases hC : cfg.dwellRequiredSec * 1000 ≤ now - st1.pendingSinceMs ∧
        cfg.marginRequired ≤ margin24 f ∧
        cfg.publishMinIntervalSec * 1000 ≤ now - st1.lastPublishMs
    · rw [if_pos hC]
      constructor
      · intro _
        exact ⟨by rw [← hsince]; exact hC.1, by rw [← hm]; exact hC.2.1,
          by rw [← hlast]; exact hC.2.2⟩
      · intro _
        simp
    · rw [if_neg hC]
      constructor
      · intro hcon
        exact absurd rfl hcon
      · intro hR
        exact absurd ⟨by rw [hsince]; exact hR.1, by rw [hm]; exact hR.2.1,
          by rw [hlast]; exact hR.2.2⟩ hC
  · intro r hr
    rw [hrun] at hr
    by_cases hC : cfg.dwellRequiredSec * 1000 ≤ now - st1.pendingSinceMs ∧
        cfg.marginRequired ≤ margin24 f ∧
        cfg.publishMinIntervalSec * 1000 ≤ now - st1.lastPublishMs
    · rw [if_pos hC] at hr
      have hinj : (⟨f.best % 12, decide (12 ≤ f.best), clamp01 (margin24 f)⟩ : KDResult)
          = r := by
        exact Option.some.inj hr
      rw [← hinj, hbest, hm]
      exact ⟨rfl, rfl, rfl⟩
    · rw [if_neg hC] at hr
      exact absurd hr (by simp)

lemma scanBest_instEx : scanBest (biasedScore kdDefault instEx 0) = ⟨0, 1, 26 / 25, 1 / 2⟩ := by
  norm_num [scanBest, scanStep, scanInit, biasedScore, instEx, kdDefault, List.range_succ]

lemma scanBest_instDeg :
    scanBest (biasedScore kdDefault instDeg (-1)) = ⟨0, 1, 1 / 25, 0⟩ := by
  norm_num [scanBest, scanStep, scanInit, biasedScore, instDeg, kdDefault, List.range_succ]

lemma maybePublish_instEx_1000 :
    maybePublish kdDefault instEx 0 ⟨0, 0, 0⟩ 1000 = (⟨0, 0, 0⟩, none) := by
  simp only [maybePublish, scanBest_instEx]
  norm_num [margin24, clamp01, kdDefault]

lemma maybePublish_instEx_5000 :
    maybePublish kdDefault instEx 0 ⟨0, 0, 0⟩ 5000
      = (⟨0, 0, 5000⟩, some ⟨0, false, 27 / 50⟩) := by
  simp only [maybePublish, scanBest_instEx]
  norm_num [margin24, clamp01, kdDefault]

lemma maybePublish_instEx_6000 :
    maybePublish kdDefault instEx 0 ⟨0, 0, 5000⟩ 6000
      = (⟨0, 0, 6000⟩, some ⟨0, false, 27 / 50⟩) := by
  simp only [maybePublish, scanBest_instEx]
  norm_num [margin24, clamp01, kdDefault]

lemma maybePublish_instDeg_10000 :
    maybePublish kdDefault instDeg (-1) ⟨0, 0, 0⟩ 10000
      = (⟨0, 0, 10000⟩, some ⟨0, false, 1⟩) := by
  simp only [maybePublish, scanBest_instDeg]
  norm_num [margin24, clamp01, kdDefault]

/-- C2 counterexample: the key publish decision depends on the wall clock,
not on the position in the stream.  From the very same detector state and
instantaneous scores, `maybePublish` publishes nothing when `nowMs()` reads
1000 ms but publishes a key when it reads 5000 ms — so `reset()` followed by
replaying identical input is not bit-identical unless the wall-clock
readings also happen to repeat. -/
theorem publish_depends_on_wall_clock :
    (maybePublish kdDefault instEx 0 ⟨0, 0, 0⟩ 1000).2 = none ∧
    (maybePublish kdDefault instEx 0 ⟨0, 0, 0⟩ 5000).2 = some ⟨0, false, 27 / 50⟩ ∧
    (none : Option KDResult) ≠ some ⟨0, false, 27 / 50⟩ := by
  refine ⟨?_, ?_, by simp⟩
  · rw [maybePublish_instEx_1000]
  · rw [maybePublish_instEx_5000]

/-- C4 counterexample: with a stationary leading key (state 0, i.e. C major)
and all gates satisfied, the detector publishes the *same* key again 1000 ms
after the first publish — more than one event for an unchanged key, because
`maybePublish` has no emit-on-change test, only the rate limit. -/
theorem same_key_republished :
    (maybePublish kdDefault instEx 0 ⟨0, 0, 0⟩ 5000).2 = some ⟨0, false, 27 / 50⟩ ∧
    (maybePublish kdDefault instEx 0
        (maybePublish kdDefault instEx 0 ⟨0, 0, 0⟩ 5000).1 6000).2
      = some ⟨0, false, 27 / 50⟩ := by
  constructor
  · rw [maybePublish_instEx_5000]
  · simp only [maybePublish_instEx_5000]
    exact congrArg Prod.snd maybePublish_instEx_6000

set_option maxRecDepth 4000 in
/-- C4 (amended): gated publication does not detect key changes: whenever a
publish happens at time `t` and the instantaneous scores and Viterbi state
are unchanged at a later time `t'` at least `publishMinIntervalSec` after
`t`, the very same key result is published again at `t'`. -/
theorem republish_while_leader_unchanged (cfg : KDCfg) (inst : ℕ → ℚ) (vit : ℤ)
    (st : PubState) (t t' : ℚ) (r : KDResult)
    (h1 : (maybePublish cfg inst vit st t).2 = some r)
    (h2 : t ≤ t')
    (h3 : cfg.publishMinIntervalSec * 1000 ≤ t' - t) :
    (maybePublish cfg inst vit (maybePublish cfg inst vit st t).1 t').2 = some r := by
  set sc := biasedScore cfg inst vit with hsc
  set f := scanBest sc with hf
  set st1 := if st.pendingKey ≠ f.best then (⟨f.best, t, st.lastPublishMs⟩ : PubState)
    else st with hst1
  have hrun1 : maybePublish cfg inst vit st t =
      if cfg.dwellRequiredSec * 1000 ≤ t - st1.pendingSinceMs ∧
         cfg.marginRequired ≤ margin24 f ∧
         cfg.publishMinIntervalSec * 1000 ≤ t - st1.lastPublishMs
      then (⟨st1.pendingKey, st1.pendingSinceMs, t⟩,
            some ⟨f.best % 12, decide (12 ≤ f.best), clamp01 (margin24 f)⟩)
      else (st1, none) := rfl
  rw [hrun1] at h1 ⊢
  by_cases hC : cfg.dwellRequiredSec * 1000 ≤ t - st1.pendingSinceMs ∧
      cfg.marginRequired ≤ margin24 f ∧
      cfg.publishMinIntervalSec * 1000 ≤ t - st1.lastPublishMs
  · rw [if_pos hC] at h1 ⊢
    have hpk : st1.pendingKey = f.best := by
      rw [hst1]
      split_ifs with h
      · rfl
      · exact not_ne_iff.mp h
    have hne : ¬((⟨st1.pendingKey, st1.pendingSinceMs, t⟩ : PubState).pendingKey
        ≠ f.best) := by
      show ¬(st1.pendingKey ≠ f.best)
      rw [hpk]
      exact fun h => h rfl
    have hrun2 : maybePublish cfg inst vit
        (⟨st1.pendingKey, st1.pendingSinceMs, t⟩ : PubState) t' =
        if cfg.dwellRequiredSec * 1000 ≤ t' -
            (if (⟨st1.pendingKey, st1.pendingSinceMs, t⟩ : PubState).pendingKey ≠ f.best
             then (⟨f.best, t', (⟨st1.pendingKey, st1.pendingSinceMs, t⟩ : PubState).lastPublishMs⟩ : PubState)
             else (⟨st1.pendingKey, st1.pendingSinceMs, t⟩ : PubState)).pendingSinceMs ∧
           cfg.marginRequired ≤ margin24 f ∧
           cfg.publishMinIntervalSec * 1000 ≤ t' -
            (if (⟨st1.pendingKey, st1.pendingSinceMs, t⟩ : PubState).pendingKey ≠ f.best
             then (⟨f.best, t', (⟨st1.pendingKey, st1.pendingSinceMs, t⟩ : PubState).lastPublishMs⟩ : PubState)
             else (⟨st1.pendingKey, st1.pendingSinceMs, t⟩ : PubState)).lastPublishMs
        then (⟨(if (⟨st1.pendingKey, st1.pendingSinceMs, t⟩ : PubState).pendingKey ≠ f.best
                then (⟨f.best, t', (⟨st1.pendingKey, st1.pendingSinceMs, t⟩ : PubState).lastPublishMs⟩ : PubState)
                else (⟨st1.pendingKey, st1.pendingSinceMs, t⟩ : PubState)).pendingKey,
               (if (⟨st1.pendingKey, st1.pendingSinceMs, t⟩ : PubState).pendingKey ≠ f.best
                then (⟨f.best, t', (⟨st1.pendingKey, st1.pendingSinceMs, t⟩ : PubState).lastPublishMs⟩ : PubState)
                else (⟨st1.pendingKey, st1.pendingSinceMs, t⟩ : PubState)).pendingSinceMs, t'⟩,
              some ⟨f.best % 12, decide (12 ≤ f.best), clamp01 (margin24 f)⟩)
        else ((if (⟨st1.pendingKey, st1.pendingSinceMs, t⟩ : PubState).pendingKey ≠ f.best
               then (⟨f.best, t', (⟨st1.pendingKey, st1.pendingSinceMs, t⟩ : PubState).lastPublishMs⟩ : PubState)
               else (⟨st1.pendingKey, st1.pendingSinceMs, t⟩ : PubState)), none) := rfl
    rw [if_neg hne] at hrun2
    show (maybePublish cfg inst vit (⟨st1.pendingKey, st1.pendingSinceMs, t⟩ : PubState) t').2
        = some r
    rw [hrun2, if_pos ?cond]
    case cond =>
      refine ⟨?_, hC.2.1, ?_⟩
      · show cfg.dwellRequiredSec * 1000 ≤ t' - st1.pendingSinceMs
        have := hC.1
        linarith
      · show cfg.publishMinIntervalSec * 1000 ≤ t' - t
        exact h3
    exact h1
  · rw [if_neg hC] at h1
    exact absurd h1 (by simp)

/-- Witness for C4's amended theorem: the concrete two-publish scenario. -/
theorem republish_while_leader_unchanged_witness :
    (maybePublish kdDefault instEx 0
        (maybePublish kdDefault instEx 0 ⟨0, 0, 0⟩ 5000).1 6000).2
      = some ⟨0, false, 27 / 50⟩ :=
  republish_while_leader_unchanged kdDefault instEx 0 ⟨0, 0, 0⟩ 5000 6000
    ⟨0, false, 27 / 50⟩ (by rw [maybePublish_instEx_5000]) (by norm_num)
    (by norm_num [kdDefault])

/-- C3 counterexample: at a degenerate field (runner-up biased score 0 ≤ 1e-6)
the detector publishes with confidence 1 although the claim's margin — best
minus second-best, here 1/25 — is **below** `marginRequired = 2/25`, and
`clamp01` of that margin is 1/25, not the published 1.  State 0 is the leading
state at this input. -/
theorem degenerate_margin_published :
    (maybePublish kdDefault instDeg (-1) ⟨0, 0, 0⟩ 10000).2 = some ⟨0, false, 1⟩ ∧
    (∀ k, k < 24 → biasedScore kdDefault instDeg (-1) k
        ≤ biasedScore kdDefault instDeg (-1) 0) ∧
    specSecondBest (biasedScore kdDefault instDeg (-1)) 0 = 0 ∧
    biasedScore kdDefault instDeg (-1) 0
        - specSecondBest (biasedScore kdDefault instDeg (-1)) 0
      < kdDefault.marginRequired ∧
    clamp01 (biasedScore kdDefault instDeg (-1) 0
        - specSecondBest (biasedScore kdDefault instDeg (-1)) 0) ≠ 1 := by
  have hsec : specSecondBest (biasedScore kdDefault instDeg (-1)) 0 = 0 := by
    norm_num [specSecondBest, listMaxQ, biasedScore, instDeg, kdDefault,
      show (List.range 24).erase 0
        = [1, 2, 3, 4, 5, 6, 7, 8, 9, 10, 11, 12, 13, 14, 15, 16, 17, 18, 19,
           20, 21, 22, 23] by decide]
  refine ⟨?_, ?_, hsec, ?_, ?_⟩
  · rw [maybePublish_instDeg_10000]
  · intro k hk
    have hne : ¬((k : ℤ) = -1) := by omega
    simp only [biasedScore, instDeg, if_neg hne, add_zero]
    split_ifs <;> norm_num [kdDefault]
  · rw [hsec]
    norm_num [biasedScore, instDeg, kdDefault]
  · rw [hsec]
    norm_num [biasedScore, instDeg, clamp01, kdDefault]

/-- Witness for C3's amended theorem at the degenerate-margin input. -/
theorem publish_gates_iff_witness :
    ∃ b : ℕ, b < 24 ∧
      (∀ k, k < 24 → biasedScore kdDefault instDeg (-1) k
          ≤ biasedScore kdDefault instDeg (-1) b) ∧
      ((maybePublish kdDefault instDeg (-1) ⟨0, 0, 0⟩ 10000).2 ≠ none ↔
        (kdDefault.dwellRequiredSec * 1000
            ≤ 10000 - (if (⟨0, 0, 0⟩ : PubState).pendingKey ≠ (b : ℤ) then 10000
                       else (⟨0, 0, 0⟩ : PubState).pendingSinceMs) ∧
          kdDefault.marginRequired ≤ specMargin (biasedScore kdDefault instDeg (-1)) b ∧
          kdDefault.publishMinIntervalSec * 1000
            ≤ 10000 - (⟨0, 0, 0⟩ : PubState).lastPublishMs)) ∧
      (∀ r, (maybePublish kdDefault instDeg (-1) ⟨0, 0, 0⟩ 10000).2 = some r →
        r.keyIndex = (b : ℤ) % 12 ∧ r.isMinor = decide (12 ≤ (b : ℤ)) ∧
        r.confidence = clamp01 (specMargin (biasedScore kdDefault instDeg (-1)) b)) := by
  apply publish_gates_iff kdDefault instDeg (-1) ⟨0, 0, 0⟩ 10000
  intro k hk
  have hne : ¬((k : ℤ) = -1) := by omega
  simp only [biasedScore, instDeg, if_neg hne, add_zero]
  split_ifs <;> norm_num

/-- C10: the ring buffer is a bounded FIFO.  From `reset(req)`: the capacity
is a power of two ≥ 256; after any sequence of push/pop operations at most
`capacity - 1` samples are stored; every pop output along the way equals the
output of the specification FIFO queue (`runQ`) — i.e. pops return the
earliest unread samples in push order; and a pop of `n` returns exactly
`min(stored, n)` samples. -/
theorem ring_buffer_fifo_bounded (req : ℕ) (ops : List RBOp) (n : ℕ) :
    (∃ k : ℕ, (resetState req).cap = 2 ^ k) ∧
    256 ≤ (resetState req).cap ∧
    (runRB (resetState req) ops).1.size ≤ (resetState req).cap - 1 ∧
    (runRB (resetState req) ops).2 = (runQ (resetState req).cap [] ops).2 ∧
    (popRB (runRB (resetState req) ops).1 n).2
        = (runQ (resetState req).cap [] ops).1.take n ∧
    (popRB (runRB (resetState req) ops).1 n).2.length
        = min (runRB (resetState req) ops).1.size n := by
  have h := run_sim ops (resetState req) [] (reset_inv req)
  have hpop := pop_sim _ _ n h.1
  refine ⟨(reset_cap_props req).1, (reset_cap_props req).2, ?_, h.2.1, hpop.2.1,
    hpop.2.2.2⟩
  obtain ⟨_, hsz, hbnd, _, _⟩ := h.1
  show (runRB (resetState req) ops).1.w - (runRB (resetState req) ops).1.r
      ≤ (resetState req).cap - 1
  rw [hsz]
  rw [h.2.2] at hbnd
  exact hbnd

/-- C8 (amended): when a push does not fit, the ring buffer keeps the oldest
unread samples and drops the **newest** part of the incoming block: the unread
contents become the old contents followed by the first `free` samples of the
block, the call returns immediately with the number written, and the rest of
the block is added to the drop counter (the producer is never throttled). -/
theorem push_full_drops_newest (s : RBState) (q vs : List ℚ) (h : RBinv s q) :
    RBinv (pushMono s vs).1 (q ++ vs.take (s.cap - 1 - q.length)) ∧
    (pushMono s vs).2 = min vs.length (s.cap - 1 - q.length) ∧
    (pushMono s vs).1.dropped
      = s.dropped + (vs.length - min vs.length (s.cap - 1 - q.length)) := by
  have hp := push_sim s q vs h
  exact ⟨hp.1, hp.2.1, hp.2.2.2⟩

/-- Witness for C8's amended theorem: push two samples into a freshly reset
buffer. -/
theorem push_full_drops_newest_witness :
    RBinv (pushMono (resetState 256) [1, 2]).1
      ([] ++ List.take ((resetState 256).cap - 1 - ([] : List ℚ).length) [1, 2]) ∧
    (pushMono (resetState 256) [1, 2]).2
      = min ([1, 2] : List ℚ).length ((resetState 256).cap - 1 - ([] : List ℚ).length) ∧
    (pushMono (resetState 256) [1, 2]).1.dropped
      = (resetState 256).dropped +
        (([1, 2] : List ℚ).length -
          min ([1, 2] : List ℚ).length ((resetState 256).cap - 1 - ([] : List ℚ).length)) :=
  push_full_drops_newest (resetState 256) [] [1, 2] (reset_inv 256)

set_option maxRecDepth 8000 in
/-- C8 counterexample: the claim says the **oldest** unread samples are
skipped so that the consumer sees the most recent samples.  In fact, filling
a freshly reset buffer (capacity 256) with 255 zeros and then pushing the
sample 37 drops 37 itself: popping everything returns the 255 zeros, which is
not the suffix of the pushed stream that the claim predicts. -/
theorem consumer_sees_oldest_not_newest :
    (runRB (resetState 256)
        [RBOp.push (List.replicate 255 0), RBOp.push [37], RBOp.pop 255]).2
      = [List.replicate 255 (0 : ℚ)] ∧
    [List.replicate 255 (0 : ℚ)]
      ≠ [(List.replicate 255 (0 : ℚ) ++ [37]).drop 1] := by
  constructor
  · rw [(run_sim _ (resetState 256) [] (reset_inv 256)).2.1]
    have hcap : (resetState 256).cap = 256 := by
      show growCap 256 256 = 256
      unfold growCap
      rw [dif_neg (by omega)]
    rw [hcap]
    have e1 : queuePush 256 [] (List.replicate 255 (0 : ℚ)) = List.replicate 255 0 := by
      unfold queuePush
      rw [List.nil_append, List.take_replicate]
      norm_num
    have e2 : queuePush 256 (List.replicate 255 (0 : ℚ)) [37] = List.replicate 255 0 := by
      unfold queuePush
      rw [List.length_replicate, show (256 - 1 - 255 : ℕ) = 0 by norm_num,
        List.take_zero, List.append_nil]
    show (runQ 256 (queuePush 256 [] (List.replicate 255 (0 : ℚ)))
        [RBOp.push [37], RBOp.pop 255]).2 = _
    rw [e1]
    show (runQ 256 (queuePush 256 (List.replicate 255 (0 : ℚ)) [37])
        [RBOp.pop 255]).2 = _
    rw [e2]
    show (queuePop (List.replicate 255 (0 : ℚ)) 255).2
        :: (runQ 256 (queuePop (List.replicate 255 (0 : ℚ)) 255).1 []).2 = _
    show (List.replicate 255 (0 : ℚ)).take 255 :: [] = _
    rw [List.take_replicate]
    norm_num
  · intro hcontra
    have h1 := congrArg (fun l : List (List ℚ) => (l.getD 0 []).getD 254 0) hcontra
    simp only [List.getD_cons_zero] at h1
    rw [getD_replicate_zero] at h1
    rw [List.drop_append_of_le_length (by rw [List.length_replicate]; norm_num),
      List.drop_replicate,
      List.getD_append_right _ _ _ _ (by rw [List.length_replicate])] at h1
    rw [List.length_replicate] at h1
    norm_num at h1

end Canonkey
